import Mathlib

/-!
# Verification of the OCRDemo line-segmentation core

Shallow embedding of `app/line_segmenter.py` (`segment_lines`) and of the
orchestration in `app/trocr_engine.py` (`TrOCREngine.ocr_pages` and
`TrOCREngine._recognize_line`).

Modelling conventions:
* A PIL image is a `mode` string, a `width`, and a list of pixel rows
  (each a list of grayscale values).  Pixel grids (`np.ndarray`) are
  `List (List Nat)`.
* External library calls (`page.convert("L")` / `np.array`,
  `cv2.threshold` with Otsu, `img.convert("RGB")`, and the
  processor/model/decode pipeline of TrOCR) are abstract function
  parameters; the code under verification is everything the repository
  itself does with their results.
* numpy float arithmetic (`projection.max() * 0.1` and the `>`
  comparison) is modelled with exact rationals.
* Python's `max(0, start_row - pad)` on ints coincides with truncated
  natural subtraction `start_row - pad` on `Nat`; theorems restate the
  `max` form over `ℤ` where the claim mentions it.
-/

namespace OCRDemo

/-- A 2-D pixel grid (`np.ndarray` of one channel): a list of rows. -/
abbrev Grid := List (List Nat)

/-- A PIL image: its mode string (`"L"`, `"RGB"`, ...), its width, and its
pixel rows.  `height` is the number of rows. -/
structure Image where
  mode : String
  width : Nat
  rows : Grid
deriving DecidableEq, Repr

def Image.height (img : Image) : Nat := img.rows.length

/-- Model of `page.crop((0, y1, page.width, y2))`: the full-width horizontal band of
rows `[y1, y2)`.  PIL preserves the mode and keeps columns `[0, width)`,
which is every column here. -/
def Image.cropRows (img : Image) (y1 y2 : Nat) : Image :=
  ⟨img.mode, img.width, (img.rows.drop y1).take (y2 - y1)⟩

/-- Structure `LineImage` from `app/line_segmenter.py`: a cropped line and its
bounding box `(x1, y1, x2, y2)`. -/
structure LineImage where
  image : Image
  bbox : Nat × Nat × Nat × Nat
deriving DecidableEq, Repr

/-- Model of `projection.max()` (with 0 for an empty array; the code always calls it
on an array of length ≥ 1). -/
def listMax (l : List Nat) : Nat := l.foldr max 0

/-- The `for i, flag in enumerate(is_text_row)` scan of `segment_lines`,
with the trailing `if in_line:` block.  `enumerate` is rendered by
threading the index `i`; the loop's mutable `lines` accumulator appends in
scan order, which the recursion reproduces by consing each emitted region
in front of the regions emitted later.  `H` is `gray.shape[0]`. -/
def scanRows (page : Image) (H : Nat) : Nat → List Bool → Bool → Nat → List LineImage
  | _, [], false, _ => []
  | _, [], true, start_row =>
      -- `if in_line:` tail block: y1 = max(0, start_row - 3), y2 = gray.shape[0]
      let y1 := start_row - 3
      let y2 := H
      [⟨page.cropRows y1 y2, (0, y1, page.width, y2)⟩]
  | i, true :: rest, false, _ =>
      -- `if flag and not in_line:` — enter a line at row i
      scanRows page H (i + 1) rest true i
  | i, false :: rest, true, start_row =>
      -- `elif not flag and in_line:` — close the line at end_row = i
      let end_row := i
      let y1 := start_row - 3
      let y2 := min H (end_row + 3)
      ⟨page.cropRows y1 y2, (0, y1, page.width, y2)⟩
        :: scanRows page H (i + 1) rest false start_row
  | i, true :: rest, true, start_row => scanRows page H (i + 1) rest true start_row
  | i, false :: rest, false, start_row => scanRows page H (i + 1) rest false start_row

/-- The same scan, recording for each emitted region the unpadded run
`(start_row, end_row)` and whether it was emitted by the tail block
(`isTail = true`, in which case `end_row` is the row count reached by the
scan).  `scanRows` is exactly `mkRegion` mapped over this. -/
def runs : Nat → List Bool → Bool → Nat → List (Nat × Nat × Bool)
  | _, [], false, _ => []
  | i, [], true, start_row => [(start_row, i, true)]
  | i, true :: rest, false, _ => runs (i + 1) rest true i
  | i, false :: rest, true, start_row =>
      (start_row, i, false) :: runs (i + 1) rest false start_row
  | i, true :: rest, true, start_row => runs (i + 1) rest true start_row
  | i, false :: rest, false, start_row => runs (i + 1) rest false start_row

/-- Region construction applied at each emission point of the scan:
`y1 = start_row - 3` (Python `max(0, start_row - 3)`), and
`y2 = min H (end_row + 3)` for an interior close, `y2 = H` for the tail
block. -/
def mkRegion (page : Image) (H : Nat) : Nat × Nat × Bool → LineImage
  | (start_row, end_row, isTail) =>
      let y1 := start_row - 3
      let y2 := if isTail then H else min H (end_row + 3)
      ⟨page.cropRows y1 y2, (0, y1, page.width, y2)⟩

/-- Source line `gray = np.array(page.convert("L"))`: the grayscale conversion is the
external parameter `convertL`. -/
def grayOf (convertL : Image → Grid) (page : Image) : Grid := convertL page

/-- Source line `_, bw = cv2.threshold(gray, 0, 255, cv2.THRESH_BINARY_INV + cv2.THRESH_OTSU)`:
Otsu binarization is the external parameter `threshold`. -/
def bwOf (convertL : Image → Grid) (threshold : Grid → Grid) (page : Image) : Grid :=
  threshold (grayOf convertL page)

/-- Source line `projection = bw.sum(axis=1)`: per-row sum of the mask. -/
def projectionOf (convertL : Image → Grid) (threshold : Grid → Grid) (page : Image) :
    List Nat :=
  (bwOf convertL threshold page).map List.sum

/-- Source line `thresh = projection.max() * 0.1`, as an exact rational. -/
def threshOf (convertL : Image → Grid) (threshold : Grid → Grid) (page : Image) : ℚ :=
  (listMax (projectionOf convertL threshold page) : ℚ) * (1 / 10)

/-- Source line `is_text_row = projection > thresh` (elementwise strict comparison). -/
def is_text_row (convertL : Image → Grid) (threshold : Grid → Grid) (page : Image) :
    List Bool :=
  (projectionOf convertL threshold page).map
    (fun (d : Nat) => decide ((d : ℚ) > threshOf convertL threshold page))

/-- Function `segment_lines(page)` from `app/line_segmenter.py`, parametrized by the
two external image operations it calls. -/
def segment_lines (convertL : Image → Grid) (threshold : Grid → Grid) (page : Image) :
    List LineImage :=
  scanRows page (grayOf convertL page).length 0 (is_text_row convertL threshold page)
    false 0

/-- The input/output relation of `segment_lines`: the code is a pure
function (it mutates nothing: `np.array` copies the pixels and
`Image.crop` returns a fresh image), so the relation is functional. -/
def SegmentsTo (convertL : Image → Grid) (threshold : Grid → Grid) (page : Image)
    (out : List LineImage) : Prop :=
  segment_lines convertL threshold page = out

/-- Two successive invocations of `segment_lines` on the same page,
together with the page afterwards. -/
def runTwice (convertL : Image → Grid) (threshold : Grid → Grid) (page : Image) :
    (List LineImage × List LineImage) × Image :=
  ((segment_lines convertL threshold page, segment_lines convertL threshold page), page)

/-! ## `app/trocr_engine.py`: `TrOCREngine._recognize_line` and
`TrOCREngine.ocr_pages`.  The HF processor / `model.generate` /
`batch_decode` pipeline is one external parameter `generate`; PIL's
`img.convert("RGB")` is the external parameter `convertRGB`. -/

/-- One entry of a page's `"lines"` list: the bbox dict
`{"x1":…, "y1":…, "x2":…, "y2":…}` (flattened to a tuple) and the
recognized text. -/
structure LineRecord where
  bbox : Nat × Nat × Nat × Nat
  text : String
deriving DecidableEq, Repr

/-- One page dict of the `ocr_pages` output: `{"page": …, "lines": […]}`. -/
structure PageResult where
  page : Nat
  lines : List LineRecord
deriving DecidableEq, Repr

/-- Python `str.strip()`: remove leading and trailing whitespace. -/
def pyStrip (s : String) : String :=
  ⟨((s.data.dropWhile Char.isWhitespace).reverse.dropWhile Char.isWhitespace).reverse⟩

/-- The `if img.mode != "RGB": img = img.convert("RGB")` guard of
`_recognize_line`: the image actually handed to the recognition model. -/
def recognizeInput (convertRGB : Image → Image) (img : Image) : Image :=
  if img.mode ≠ "RGB" then convertRGB img else img

/-- Method `TrOCREngine._recognize_line`: run the external recognizer on the
RGB-converted crop and strip the result. -/
def recognize_line (convertRGB : Image → Image) (generate : Image → String)
    (img : Image) : String :=
  pyStrip (generate (recognizeInput convertRGB img))

/-- The per-line loop body of `ocr_pages`: recognize each segmented line,
skipping (`if not text: continue`) lines whose stripped text is empty. -/
def ocr_page_lines (convertRGB : Image → Image) (generate : Image → String)
    (line_imgs : List LineImage) : List LineRecord :=
  line_imgs.filterMap fun line =>
    let text := recognize_line convertRGB generate line.image
    if text = "" then none
    else some ⟨line.bbox, text⟩

/-- The `for page_index, page in enumerate(pages, start=1)` loop of
`ocr_pages`, with the running index threaded explicitly. -/
def ocr_pages_from (convertL : Image → Grid) (threshold : Grid → Grid)
    (convertRGB : Image → Image) (generate : Image → String) :
    Nat → List Image → List PageResult
  | _, [] => []
  | idx, page :: rest =>
      ⟨idx, ocr_page_lines convertRGB generate (segment_lines convertL threshold page)⟩
        :: ocr_pages_from convertL threshold convertRGB generate (idx + 1) rest

/-- Method `TrOCREngine.ocr_pages`. -/
def ocr_pages (convertL : Image → Grid) (threshold : Grid → Grid)
    (convertRGB : Image → Image) (generate : Image → String)
    (pages : List Image) : List PageResult :=
  ocr_pages_from convertL threshold convertRGB generate 1 pages

/-! ## Concrete instantiations of the external collaborators, used to
evaluate the model on explicit inputs.  `wThreshold` is a fixed-cut
stand-in for Otsu: on the two-level images below (only pixel values far
below and far above the cut), Otsu's separating threshold classifies the
pixels identically. -/

/-- Model of `np.array(page.convert("L"))` on a page that is already grayscale. -/
def wConvertL : Image → Grid := fun img => img.rows

/-- Inverse binary threshold (dark pixels become 255 = ink). -/
def wThreshold : Grid → Grid :=
  fun g => g.map (List.map fun v => if v ≤ 127 then 255 else 0)

/-- Model of `img.convert("RGB")`: mode becomes `"RGB"`, pixels are kept. -/
def wConvertRGB : Image → Image := fun img => ⟨"RGB", img.width, img.rows⟩

/-- A recognizer that reads some text on every crop. -/
def wGenHello : Image → String := fun _ => "hello"

/-- A recognizer that reads no text on any crop. -/
def wGenNone : Image → String := fun _ => ""

/-- A 3×2 page: ink row, blank row, ink row — two detected lines whose padded
`y1` both clamp to 0. -/
def wPageTies : Image := ⟨"L", 2, [[0, 0], [255, 255], [0, 0]]⟩

/-- The two (identical) regions `segment_lines` detects on `wPageTies`:
both crops are rows `[0, 3)`, i.e. the whole page. -/
def wRegionTies : LineImage := ⟨⟨"L", 2, [[0, 0], [255, 255], [0, 0]]⟩, (0, 0, 2, 3)⟩

/-- A 5×2 page with a single ink row at row 1 (a run of exactly one `true`
row closed at the interior blank row 2). -/
def wPageBand : Image :=
  ⟨"L", 2, [[255, 255], [0, 0], [255, 255], [255, 255], [255, 255]]⟩

/-- Page `wPageBand` with all intensities moved (254/10 instead of 255/0): the
binary ink mask after thresholding is identical. -/
def wPageBandScaled : Image :=
  ⟨"L", 2, [[254, 254], [10, 10], [254, 254], [254, 254], [254, 254]]⟩

/-- A 4×2 page whose ink band touches the bottom edge (rows 2 and 3). -/
def wPageTail : Image := ⟨"L", 2, [[255, 255], [255, 255], [0, 0], [0, 0]]⟩

/-- A 2×2 all-white page: zero ink everywhere. -/
def wPageBlank : Image := ⟨"L", 2, [[255, 255], [255, 255]]⟩

/-- The strict comparison `d > max * 0.1` over ℚ is the integer comparison
`10 * d > max`.  Used to evaluate the flag sequence on concrete pages. -/
theorem rat_flag_iff (d m : Nat) :
    ((d : ℚ) > (m : ℚ) * (1 / 10)) ↔ m < 10 * d := by
  rw [gt_iff_lt, mul_one_div, div_lt_iff₀ (by norm_num : (0 : ℚ) < 10)]
  rw [show (d : ℚ) * 10 = ((10 * d : Nat) : ℚ) by push_cast; ring]
  exact_mod_cast Iff.rfl

/-- Evaluation form of `is_text_row`, with the integer comparison of `rat_flag_iff`. -/
theorem is_text_row_eq (convertL : Image → Grid) (threshold : Grid → Grid)
    (page : Image) :
    is_text_row convertL threshold page =
      (projectionOf convertL threshold page).map
        (fun d => decide (listMax (projectionOf convertL threshold page) < 10 * d)) := by
  unfold is_text_row threshOf
  apply List.map_congr_left
  intro d _
  rw [decide_eq_decide]
  exact rat_flag_iff d _

/-- The region scan is the run scan followed by region construction. -/
theorem scanRows_eq_runs (page : Image) (H : Nat) (l : List Bool) :
    ∀ (i : Nat) (b : Bool) (s : Nat),
      scanRows page H i l b s = (runs i l b s).map (mkRegion page H) := by
  induction l with
  | nil => intro i b s; cases b <;> rfl
  | cons f rest ih =>
      intro i b s
      cases f <;> cases b <;> simp [scanRows, runs, ih, mkRegion]

/-- Every run emitted from scan position `i` starts at `i` or later, except
that in the `in_line` state the current run started at `s0`. -/
theorem runs_start (l : List Bool) :
    ∀ (i : Nat) (b : Bool) (s0 : Nat), ∀ r ∈ runs i l b s0,
      (b = false → i ≤ r.1) ∧ (b = true → r.1 = s0 ∨ i ≤ r.1) := by
  induction l with
  | nil =>
      intro i b s0 r hr
      cases b with
      | false => simp [runs] at hr
      | true =>
          simp only [runs, List.mem_singleton] at hr
          subst hr
          exact ⟨fun h => by simp at h, fun _ => Or.inl rfl⟩
  | cons f rest ih =>
      intro i b s0 r hr
      cases f with
      | false =>
          cases b with
          | false =>
              simp only [runs] at hr
              obtain ⟨h, -⟩ := ih (i + 1) false s0 r hr
              exact ⟨fun _ => Nat.le_of_succ_le (h rfl), fun h => by simp at h⟩
          | true =>
              simp only [runs, List.mem_cons] at hr
              rcases hr with hr | hr
              · subst hr
                exact ⟨fun h => by simp at h, fun _ => Or.inl rfl⟩
              · obtain ⟨h, -⟩ := ih (i + 1) false s0 r hr
                exact ⟨fun h => by simp at h,
                  fun _ => Or.inr (Nat.le_of_succ_le (h rfl))⟩
      | true =>
          cases b with
          | false =>
              simp only [runs] at hr
              obtain ⟨-, h⟩ := ih (i + 1) true i r hr
              refine ⟨fun _ => ?_, fun h => by simp at h⟩
              rcases h rfl with h | h <;> omega
          | true =>
              simp only [runs] at hr
              obtain ⟨-, h⟩ := ih (i + 1) true s0 r hr
              refine ⟨fun h => by simp at h, fun _ => ?_⟩
              rcases h rfl with h | h
              · exact Or.inl h
              · exact Or.inr (by omega)

/-- Transport of the numeric run facts across one scanned row. -/
theorem runs_numeric_step (i : Nat) (f : Bool) (rest : List Bool)
    (r : Nat × Nat × Bool)
    (h : r.1 < r.2.1 ∧ r.2.1 ≤ (i + 1) + rest.length ∧
      (r.2.2 = true → r.2.1 = (i + 1) + rest.length) ∧
      (r.2.2 = false → r.2.1 < (i + 1) + rest.length)) :
    r.1 < r.2.1 ∧ r.2.1 ≤ i + (f :: rest).length ∧
      (r.2.2 = true → r.2.1 = i + (f :: rest).length) ∧
      (r.2.2 = false → r.2.1 < i + (f :: rest).length) := by
  simp only [List.length_cons]
  obtain ⟨h1, h2, h3, h4⟩ := h
  refine ⟨h1, by omega, fun ht => ?_, fun ht => ?_⟩
  · have := h3 ht; omega
  · have := h4 ht; omega

/-- Numeric facts about each emitted run `(s, e, t)`: the run is nonempty
(`s < e`), its end does not exceed the number of scanned rows, a tail run
ends exactly at the number of scanned rows, and an interior-closed run ends
strictly before it. -/
theorem runs_numeric (l : List Bool) :
    ∀ (i : Nat) (b : Bool) (s0 : Nat), (b = true → s0 < i) →
      ∀ r ∈ runs i l b s0,
        r.1 < r.2.1 ∧ r.2.1 ≤ i + l.length ∧
        (r.2.2 = true → r.2.1 = i + l.length) ∧
        (r.2.2 = false → r.2.1 < i + l.length) := by
  induction l with
  | nil =>
      intro i b s0 hb r hr
      cases b with
      | false => simp [runs] at hr
      | true =>
          simp only [runs, List.mem_singleton] at hr
          subst hr
          exact ⟨hb rfl, by simp, fun _ => by simp, fun h => by simp at h⟩
  | cons f rest ih =>
      intro i b s0 hb r hr
      cases f with
      | false =>
          cases b with
          | false =>
              simp only [runs] at hr
              exact runs_numeric_step i false rest r
                (ih (i + 1) false s0 (by simp) r hr)
          | true =>
              simp only [runs, List.mem_cons] at hr
              rcases hr with hr | hr
              · subst hr
                refine ⟨hb rfl, ?_, fun ht => by simp at ht, fun _ => ?_⟩
                · simp only [List.length_cons]; omega
                · simp only [List.length_cons]; omega
              · exact runs_numeric_step i false rest r
                  (ih (i + 1) false s0 (by simp) r hr)
      | true =>
          cases b with
          | false =>
              simp only [runs] at hr
              exact runs_numeric_step i true rest r
                (ih (i + 1) true i (fun _ => Nat.lt_succ_self i) r hr)
          | true =>
              simp only [runs] at hr
              exact runs_numeric_step i true rest r
                (ih (i + 1) true s0 (fun _ => Nat.lt_succ_of_lt (hb rfl)) r hr)

/-- Consecutive emitted runs are strictly ordered: each run starts strictly
after the previous run's start and strictly after the previous run's
(unpadded) end. -/
theorem runs_chain (l : List Bool) :
    ∀ (i : Nat) (b : Bool) (s0 : Nat), (b = true → s0 < i) →
      List.Chain' (fun p q : Nat × Nat × Bool => p.1 < q.1 ∧ p.2.1 < q.1)
        (runs i l b s0) := by
  induction l with
  | nil =>
      intro i b s0 _
      cases b with
      | false => simp [runs]
      | true => simp [runs]
  | cons f rest ih =>
      intro i b s0 hb
      cases f with
      | false =>
          cases b with
          | false => simpa only [runs] using ih (i + 1) false s0 (by simp)
          | true =>
              simp only [runs]
              rw [List.chain'_cons']
              refine ⟨fun q hq => ?_, ih (i + 1) false s0 (by simp)⟩
              have hmem : q ∈ runs (i + 1) rest false s0 := List.mem_of_mem_head? hq
              have hq1 := (runs_start rest (i + 1) false s0 q hmem).1 rfl
              have hs0 := hb rfl
              refine ⟨by show s0 < q.1; omega, ?_⟩
              show i < q.1
              omega
      | true =>
          cases b with
          | false =>
              simpa only [runs] using ih (i + 1) true i (fun _ => Nat.lt_succ_self i)
          | true =>
              simpa only [runs] using
                ih (i + 1) true s0 (fun _ => Nat.lt_succ_of_lt (hb rfl))

/-- A flag suffix with no `true` row emits nothing from the `not_in_line`
state. -/
theorem runs_allFalse (l : List Bool) :
    ∀ (i s0 : Nat), (∀ f ∈ l, f = false) → runs i l false s0 = [] := by
  induction l with
  | nil => intro i s0 _; rfl
  | cons f rest ih =>
      intro i s0 h
      have hf : f = false := h f (List.mem_cons_self f rest)
      subst hf
      simpa only [runs] using ih (i + 1) s0 fun g hg => h g (List.mem_cons_of_mem _ hg)

/-- From the `in_line` state the scan always emits at least the current
run. -/
theorem runs_true_neNil (l : List Bool) :
    ∀ (i s0 : Nat), runs i l true s0 ≠ [] := by
  induction l with
  | nil => intro i s0; simp [runs]
  | cons f rest ih =>
      intro i s0
      cases f
      · simp [runs]
      · simpa only [runs] using ih (i + 1) s0

/-- A flag suffix containing a `true` row makes the scan emit at least one
run. -/
theorem runs_neNil_of_mem_true (l : List Bool) :
    ∀ (i s0 : Nat), true ∈ l → runs i l false s0 ≠ [] := by
  induction l with
  | nil => intro i s0 h; simp at h
  | cons f rest ih =>
      intro i s0 h
      cases f
      · have : true ∈ rest := by simpa using h
        simpa only [runs] using ih (i + 1) s0 this
      · simpa only [runs] using runs_true_neNil rest (i + 1) i

/-- When the last flag is `true` (or the flag list is empty and the scan is
already `in_line`), the scan ends in the `in_line` state and its last
emitted run is the tail run, ending exactly at the number of scanned
rows. -/
theorem runs_getLast_of_true_tail (l : List Bool) :
    ∀ (i : Nat) (b : Bool) (s0 : Nat),
      (l = [] → b = true) → (l ≠ [] → l.getLast? = some true) →
      ∃ s, (runs i l b s0).getLast? = some (s, i + l.length, true) := by
  induction l with
  | nil =>
      intro i b s0 hnil _
      rw [hnil rfl]
      exact ⟨s0, by simp [runs]⟩
  | cons f rest ih =>
      intro i b s0 _ hlast
      have hlast' : (f :: rest).getLast? = some true := hlast (by simp)
      cases rest with
      | nil =>
          have hf : f = true := by simpa using hlast'
          subst hf
          cases b
          · exact ⟨i, by simp [runs, Nat.add_comm]⟩
          · exact ⟨s0, by simp [runs, Nat.add_comm]⟩
      | cons g rest' =>
          have hR : (g :: rest').getLast? = some true := by
            rwa [List.getLast?_cons_cons] at hlast'
          cases f <;> cases b <;> simp only [runs]
          · obtain ⟨s, hs⟩ := ih (i + 1) false s0 (by simp) fun _ => hR
            exact ⟨s, by rw [hs]; congr 2; simp; omega⟩
          · obtain ⟨s, hs⟩ := ih (i + 1) false s0 (by simp) fun _ => hR
            refine ⟨s, ?_⟩
            obtain ⟨y, ys, hys⟩ :
                ∃ y ys, runs (i + 1) (g :: rest') false s0 = y :: ys := by
              rcases h : runs (i + 1) (g :: rest') false s0 with - | ⟨y, ys⟩
              · rw [h] at hs; simp at hs
              · exact ⟨y, ys, rfl⟩
            rw [hys, List.getLast?_cons_cons, ← hys, hs]
            congr 2
            simp; omega
          · obtain ⟨s, hs⟩ := ih (i + 1) true i (by simp) fun _ => hR
            exact ⟨s, by rw [hs]; congr 2; simp; omega⟩
          · obtain ⟨s, hs⟩ := ih (i + 1) true s0 (by simp) fun _ => hR
            exact ⟨s, by rw [hs]; congr 2; simp; omega⟩

/-- Index bookkeeping for scans over a suffix: the first unscanned flag. -/
theorem drop_cons_facts (flags : List Bool) (i : Nat) (f : Bool) (rest : List Bool)
    (hdrop : flags.drop i = f :: rest) :
    i < flags.length ∧ flags.getD i false = f ∧ flags.drop (i + 1) = rest := by
  have hlt : i < flags.length := by
    by_contra h
    rw [List.drop_eq_nil_of_le (by omega)] at hdrop
    exact List.noConfusion hdrop
  refine ⟨hlt, ?_, ?_⟩
  · have h0 : (flags.drop i)[0]? = some f := by rw [hdrop]; simp
    rw [List.getElem?_drop] at h0
    simp only [Nat.add_zero] at h0
    simp [List.getD_eq_getElem?_getD, h0]
  · have h := List.drop_drop 1 i flags
    rw [hdrop] at h
    simpa [Nat.add_comm] using h.symm

/-- Every run `(s, e, t)` the scan emits is a run of `true` flags that is
maximal on the left (row `s - 1` is blank or `s` is the top), and an
interior-closed run (`t = false`) ends at a blank row `e`.  The scan state
invariants: in the `in_line` state the current run `[s0, i)` consists of
`true` flags and started maximally; in the `not_in_line` state the
previously scanned row is blank (or the scan is at the top). -/
theorem runs_spec (flags : List Bool) :
    ∀ (l : List Bool) (i : Nat) (b : Bool) (s0 : Nat),
      flags.drop i = l →
      (b = true → s0 < i ∧ (∀ j, s0 ≤ j → j < i → flags.getD j false = true) ∧
        (s0 = 0 ∨ flags.getD (s0 - 1) false = false)) →
      (b = false → i = 0 ∨ flags.getD (i - 1) false = false) →
      ∀ r ∈ runs i l b s0,
        (∀ j, r.1 ≤ j → j < r.2.1 → flags.getD j false = true) ∧
        (r.1 = 0 ∨ flags.getD (r.1 - 1) false = false) ∧
        (r.2.2 = false → flags.getD r.2.1 false = false) := by
  intro l
  induction l with
  | nil =>
      intro i b s0 _ hT _ r hr
      cases b with
      | false => simp [runs] at hr
      | true =>
          simp only [runs, List.mem_singleton] at hr
          subst hr
          obtain ⟨-, h2, h3⟩ := hT rfl
          exact ⟨h2, h3, fun h => by simp at h⟩
  | cons f rest ih =>
      intro i b s0 hdrop hT hF r hr
      obtain ⟨hlt, hfi, hrest⟩ := drop_cons_facts flags i f rest hdrop
      cases f with
      | false =>
          cases b with
          | false =>
              simp only [runs] at hr
              exact ih (i + 1) false s0 hrest (by simp)
                (fun _ => Or.inr (by simpa using hfi)) r hr
          | true =>
              simp only [runs, List.mem_cons] at hr
              obtain ⟨h1, h2, h3⟩ := hT rfl
              rcases hr with hr | hr
              · subst hr
                exact ⟨h2, h3, fun _ => by simpa using hfi⟩
              · exact ih (i + 1) false s0 hrest (by simp)
                  (fun _ => Or.inr (by simpa using hfi)) r hr
      | true =>
          cases b with
          | false =>
              simp only [runs] at hr
              refine ih (i + 1) true i hrest (fun _ => ⟨Nat.lt_succ_self i, ?_, ?_⟩)
                (by simp) r hr
              · intro j hj1 hj2
                have : j = i := by omega
                subst this
                exact hfi
              · exact hF rfl
          | true =>
              simp only [runs] at hr
              obtain ⟨h1, h2, h3⟩ := hT rfl
              refine ih (i + 1) true s0 hrest
                (fun _ => ⟨Nat.lt_succ_of_lt h1, ?_, h3⟩) (by simp) r hr
              intro j hj1 hj2
              rcases Nat.lt_or_ge j i with hj | hj
              · exact h2 j hj1 hj
              · have : j = i := by omega
                subst this
                exact hfi

/-- Completeness of the scan: every maximal run of `true` flags `[s, e)`
that is closed by a blank row at `e` strictly inside the flag list is
emitted as the interior-closed run `(s, e, false)`. -/
theorem runs_complete (flags : List Bool) (s e : Nat)
    (hse : s < e) (helen : e < flags.length)
    (htrue : ∀ j, s ≤ j → j < e → flags.getD j false = true)
    (hpre : s = 0 ∨ flags.getD (s - 1) false = false)
    (hend : flags.getD e false = false) :
    ∀ (l : List Bool) (i : Nat) (b : Bool) (s0 : Nat),
      flags.drop i = l →
      (b = false → i ≤ s) →
      (b = true → s0 < i ∧ flags.getD (i - 1) false = true ∧ 1 ≤ i ∧
        ((s0 = s ∧ i ≤ e) ∨ i ≤ s)) →
      (s, e, false) ∈ runs i l b s0 := by
  intro l
  induction l with
  | nil =>
      intro i b s0 hdrop hA hB
      have hilen : flags.length ≤ i := by
        by_contra h
        have : flags.drop i ≠ [] := by
          apply List.ne_nil_of_length_pos
          rw [List.length_drop]
          omega
        exact this hdrop
      cases b with
      | false => have := hA rfl; omega
      | true =>
          obtain ⟨-, -, -, h⟩ := hB rfl
          rcases h with ⟨-, h⟩ | h <;> omega
  | cons f rest ih =>
      intro i b s0 hdrop hA hB
      obtain ⟨hlt, hfi, hrest⟩ := drop_cons_facts flags i f rest hdrop
      cases b with
      | false =>
          have his : i ≤ s := hA rfl
          rcases Nat.lt_or_ge i s with hil | hil
          · cases f with
            | false =>
                simp only [runs]
                exact ih (i + 1) false s0 hrest (fun _ => by omega) (by simp)
            | true =>
                simp only [runs]
                exact ih (i + 1) true i hrest (by simp)
                  (fun _ => ⟨Nat.lt_succ_self i, by simpa using hfi, by omega,
                    Or.inr (by omega)⟩)
          · have hieq : i = s := by omega
            subst hieq
            have hf : f = true := by
              have := htrue i (le_refl i) hse
              rw [hfi] at this
              exact this
            subst hf
            simp only [runs]
            exact ih (i + 1) true i hrest (by simp)
              (fun _ => ⟨Nat.lt_succ_self i, by simpa using hfi, by omega,
                Or.inl ⟨rfl, by omega⟩⟩)
      | true =>
          obtain ⟨hs0i, hprev, hi1, hdisj⟩ := hB rfl
          rcases hdisj with ⟨hs0s, hie⟩ | his
          · rcases Nat.lt_or_ge i e with hlt' | hge
            · have hf : f = true := by
                have := htrue i (by omega) hlt'
                rw [hfi] at this
                exact this
              subst hf
              simp only [runs]
              exact ih (i + 1) true s0 hrest (by simp)
                (fun _ => ⟨by omega, by simpa using hfi, by omega,
                  Or.inl ⟨hs0s, by omega⟩⟩)
            · have hieq : i = e := by omega
              subst hieq
              have hf : f = false := by rw [← hfi, hend]
              subst hf
              simp only [runs, List.mem_cons]
              exact Or.inl (by rw [hs0s])
          · have hisneq : i ≠ s := by
              intro hieq
              subst hieq
              rcases hpre with h0 | hfalse
              · omega
              · rw [hprev] at hfalse
                exact Bool.noConfusion hfalse
            have hilt : i < s := by omega
            cases f with
            | false =>
                simp only [runs, List.mem_cons]
                exact Or.inr (ih (i + 1) false s0 hrest (fun _ => by omega) (by simp))
            | true =>
                simp only [runs]
                exact ih (i + 1) true s0 hrest (by simp)
                  (fun _ => ⟨by omega, by simpa using hfi, by omega, Or.inr (by omega)⟩)

/-- Equation: `segment_lines` is region construction mapped over the run scan. -/
theorem segment_lines_eq (convertL : Image → Grid) (threshold : Grid → Grid)
    (page : Image) :
    segment_lines convertL threshold page =
      (runs 0 (is_text_row convertL threshold page) false 0).map
        (mkRegion page (grayOf convertL page).length) :=
  scanRows_eq_runs page (grayOf convertL page).length
    (is_text_row convertL threshold page) 0 false 0

/-- The flag sequence has one flag per mask row. -/
theorem is_text_row_length (convertL : Image → Grid) (threshold : Grid → Grid)
    (page : Image) :
    (is_text_row convertL threshold page).length =
      (bwOf convertL threshold page).length := by
  simp [is_text_row, projectionOf]

theorem listMax_cons (x : Nat) (xs : List Nat) :
    listMax (x :: xs) = max x (listMax xs) := rfl

/-- Bound: `listMax` dominates every element. -/
theorem le_listMax (l : List Nat) : ∀ d ∈ l, d ≤ listMax l := by
  induction l with
  | nil => intro d hd; simp at hd
  | cons x xs ih =>
      intro d hd
      rw [listMax_cons]
      rcases List.mem_cons.mp hd with h | h
      · subst h; exact Nat.le_max_left _ _
      · exact Nat.le_trans (ih d h) (Nat.le_max_right _ _)

/-- A positive `listMax` is attained by some element. -/
theorem listMax_mem (l : List Nat) : 0 < listMax l → listMax l ∈ l := by
  induction l with
  | nil => intro h; simp [listMax] at h
  | cons x xs ih =>
      intro h
      rw [listMax_cons] at h ⊢
      rcases Nat.le_total (listMax xs) x with hle | hle
      · rw [Nat.max_eq_left hle]
        exact List.mem_cons_self x xs
      · rw [Nat.max_eq_right hle] at h ⊢
        exact List.mem_cons_of_mem x (ih h)

/-- The bbox of a constructed region, componentwise. -/
theorem mkRegion_bbox (page : Image) (H : Nat) (r : Nat × Nat × Bool) :
    (mkRegion page H r).bbox =
      (0, r.1 - 3, page.width, if r.2.2 then H else min H (r.2.1 + 3)) := by
  rcases r with ⟨s, e, t⟩
  rfl

/-- The page-loop of `ocr_pages` emits one record per page, in order. -/
theorem ocr_pages_from_length (convertL : Image → Grid) (threshold : Grid → Grid)
    (convertRGB : Image → Image) (generate : Image → String) :
    ∀ (pages : List Image) (idx : Nat),
      (ocr_pages_from convertL threshold convertRGB generate idx pages).length =
        pages.length := by
  intro pages
  induction pages with
  | nil => intro idx; rfl
  | cons p rest ih => intro idx; simp [ocr_pages_from, ih]

/-- Position `k` of the page loop's output is built from position `k` of
the input, with page number `idx + k`. -/
theorem ocr_pages_from_get (convertL : Image → Grid) (threshold : Grid → Grid)
    (convertRGB : Image → Image) (generate : Image → String) :
    ∀ (pages : List Image) (idx k : Nat),
      (ocr_pages_from convertL threshold convertRGB generate idx pages)[k]? =
        (pages[k]?).map fun page =>
          ⟨idx + k,
            ocr_page_lines convertRGB generate (segment_lines convertL threshold page)⟩ := by
  intro pages
  induction pages with
  | nil => intro idx k; simp [ocr_pages_from]
  | cons p rest ih =>
      intro idx k
      cases k with
      | zero => simp [ocr_pages_from]
      | succ k =>
          simp only [ocr_pages_from, List.getElem?_cons_succ]
          rw [ih (idx + 1) k]
          have harith : idx + 1 + k = idx + (k + 1) := by omega
          rw [harith]

/-- Each emitted line record has nonempty text and carries the bbox of a
segmented line together with that line's recognized text. -/
theorem ocr_page_lines_mem (convertRGB : Image → Image) (generate : Image → String)
    (line_imgs : List LineImage) :
    ∀ lr ∈ ocr_page_lines convertRGB generate line_imgs,
      lr.text ≠ "" ∧
      ∃ li ∈ line_imgs,
        lr.bbox = li.bbox ∧ lr.text = recognize_line convertRGB generate li.image := by
  intro lr hlr
  rw [ocr_page_lines, List.mem_filterMap] at hlr
  obtain ⟨li, hli, hf⟩ := hlr
  dsimp only at hf
  by_cases ht : recognize_line convertRGB generate li.image = ""
  · rw [if_pos ht] at hf
    exact absurd hf (by simp)
  · rw [if_neg ht] at hf
    have hlr' : lr = ⟨li.bbox, recognize_line convertRGB generate li.image⟩ :=
      (Option.some.inj hf).symm
    subst hlr'
    exact ⟨ht, li, hli, rfl, rfl⟩

/-- If every segmented line recognizes to empty text the page's line list
is empty. -/
theorem ocr_page_lines_all_empty (convertRGB : Image → Image)
    (generate : Image → String) (line_imgs : List LineImage)
    (h : ∀ li ∈ line_imgs, recognize_line convertRGB generate li.image = "") :
    ocr_page_lines convertRGB generate line_imgs = [] := by
  rw [ocr_page_lines, List.filterMap_eq_nil_iff]
  intro li hli
  dsimp only
  rw [if_pos (h li hli)]

/-- Flag sequence of the ink/blank/ink page: two runs. -/
theorem wFlagsTies :
    is_text_row wConvertL wThreshold wPageTies = [true, false, true] := by
  rw [is_text_row_eq]
  decide

/-- The segmentation of `wPageTies`: two regions whose padded boxes both
start at `y1 = 0`. -/
theorem wSegTies :
    segment_lines wConvertL wThreshold wPageTies = [wRegionTies, wRegionTies] := by
  rw [segment_lines_eq, wFlagsTies]
  decide

/-- Flag sequence of the single-band page: one run of exactly one row. -/
theorem wFlagsBand :
    is_text_row wConvertL wThreshold wPageBand =
      [false, true, false, false, false] := by
  rw [is_text_row_eq]
  decide

/-- Flag sequence of the bottom-touching band page: the scan ends
`in_line`. -/
theorem wFlagsTail :
    is_text_row wConvertL wThreshold wPageTail = [false, false, true, true] := by
  rw [is_text_row_eq]
  decide

/-! ## Claim theorems -/

/-- C1: whenever the row-flag scan closes a contiguous (maximal) run of
`true` flags spanning rows `[s, e)` at an interior `false` row `e`
(including a run of exactly one `true` row), `segment_lines` emits a Line
Region with `y1 = max(0, s - 3)`, `y2 = min(H, e + 3)`, `x1 = 0`,
`x2 = W`, whose cropped image is exactly the page rows `[y1, y2)` at full
width. -/
theorem claim_C1_interior_close (convertL : Image → Grid) (threshold : Grid → Grid)
    (page : Image) (s e : Nat)
    (hH : 1 ≤ page.height) (hW : 1 ≤ page.width)
    (hgray : (grayOf convertL page).length = page.height)
    (hse : s < e) (helen : e < (is_text_row convertL threshold page).length)
    (htrue : ∀ j, s ≤ j → j < e →
      (is_text_row convertL threshold page).getD j false = true)
    (hpre : s = 0 ∨ (is_text_row convertL threshold page).getD (s - 1) false = false)
    (hend : (is_text_row convertL threshold page).getD e false = false) :
    LineImage.mk (page.cropRows (s - 3) (min page.height (e + 3)))
        (0, s - 3, page.width, min page.height (e + 3))
      ∈ segment_lines convertL threshold page ∧
    ((s - 3 : Nat) : ℤ) = max 0 ((s : ℤ) - 3) ∧
    ((min page.height (e + 3) : Nat) : ℤ) = min (page.height : ℤ) ((e : ℤ) + 3) ∧
    (page.cropRows (s - 3) (min page.height (e + 3))).rows =
      (page.rows.drop (s - 3)).take (min page.height (e + 3) - (s - 3)) ∧
    (page.cropRows (s - 3) (min page.height (e + 3))).width = page.width := by
  refine ⟨?_, by omega, by omega, rfl, rfl⟩
  have hmem : (s, e, false) ∈ runs 0 (is_text_row convertL threshold page) false 0 :=
    runs_complete (is_text_row convertL threshold page) s e hse helen htrue hpre hend
      (is_text_row convertL threshold page) 0 false 0 (List.drop_zero _)
      (fun _ => Nat.zero_le s) (fun h => Bool.noConfusion h)
  rw [segment_lines_eq]
  have := List.mem_map_of_mem (mkRegion page (grayOf convertL page).length) hmem
  rwa [show mkRegion page (grayOf convertL page).length (s, e, false) =
      LineImage.mk (page.cropRows (s - 3) (min page.height (e + 3)))
        (0, s - 3, page.width, min page.height (e + 3)) by
    simp [mkRegion, hgray]] at this

/-- C2: every region returned by `segment_lines` has bbox
`(0, y1, W, y2)` with `0 ≤ y1 < y2 ≤ H`; no region has `y1 ≥ y2`. -/
theorem claim_C2_bounds (convertL : Image → Grid) (threshold : Grid → Grid)
    (page : Image)
    (hH : 1 ≤ page.height) (hW : 1 ≤ page.width)
    (hgray : (grayOf convertL page).length = page.height)
    (hbw : (bwOf convertL threshold page).length = (grayOf convertL page).length) :
    ∀ li ∈ segment_lines convertL threshold page,
      ∃ y1 y2, li.bbox = (0, y1, page.width, y2) ∧ 0 ≤ y1 ∧ y1 < y2 ∧
        y2 ≤ page.height := by
  intro li hli
  rw [segment_lines_eq, List.mem_map] at hli
  obtain ⟨r, hr, hmk⟩ := hli
  have hlen : (is_text_row convertL threshold page).length = page.height := by
    rw [is_text_row_length, hbw, hgray]
  obtain ⟨h1, h2, h3, h4⟩ :=
    runs_numeric (is_text_row convertL threshold page) 0 false 0 (by simp) r hr
  rw [Nat.zero_add] at h2 h3 h4
  subst hmk
  rw [mkRegion_bbox, hgray]
  refine ⟨r.1 - 3, if r.2.2 then page.height else min page.height (r.2.1 + 3),
    rfl, Nat.zero_le _, ?_, ?_⟩
  · rcases hb : r.2.2 with - | -
    · rw [if_neg (by simp [hb])]
      have := h4 hb
      rw [hlen] at this
      omega
    · rw [if_pos (by simp [hb])]
      have := h3 hb
      rw [hlen] at this
      omega
  · rcases hb : r.2.2 with - | -
    · rw [if_neg (by simp [hb])]
      omega
    · rw [if_pos (by simp [hb])]

/-- C3: when the flag sequence ends with a run of `true` flags still open
at the last row, the scan's final emission is exactly one Line Region with
`y1 = max(0, s - 3)` for the start `s` of that maximal trailing run and
`y2 = H` exactly (the tail code path adds no bottom padding). -/
theorem claim_C3_tail (convertL : Image → Grid) (threshold : Grid → Grid)
    (page : Image)
    (hgray : (grayOf convertL page).length = page.height)
    (hbw : (bwOf convertL threshold page).length = (grayOf convertL page).length)
    (hlast : (is_text_row convertL threshold page).getLast? = some true) :
    ∃ s, s < page.height ∧
      (∀ j, s ≤ j → j < page.height →
        (is_text_row convertL threshold page).getD j false = true) ∧
      (s = 0 ∨ (is_text_row convertL threshold page).getD (s - 1) false = false) ∧
      (segment_lines convertL threshold page).getLast? =
        some (LineImage.mk (page.cropRows (s - 3) page.height)
          (0, s - 3, page.width, page.height)) ∧
      ((s - 3 : Nat) : ℤ) = max 0 ((s : ℤ) - 3) := by
  set flags := is_text_row convertL threshold page with hflags
  have hlen : flags.length = page.height := by
    rw [hflags, is_text_row_length, hbw, hgray]
  have hne : flags ≠ [] := by
    intro h
    rw [h] at hlast
    simp at hlast
  obtain ⟨s, hs⟩ := runs_getLast_of_true_tail flags 0 false 0
    (fun h => absurd h hne) (fun _ => hlast)
  rw [Nat.zero_add] at hs
  have hmem : (s, flags.length, true) ∈ runs 0 flags false 0 := by
    obtain ⟨hne', heq⟩ := List.mem_getLast?_eq_getLast (Option.mem_def.mpr hs)
    rw [heq]
    exact List.getLast_mem hne'
  obtain ⟨hrun, hpre, -⟩ := runs_spec flags flags 0 false 0 (List.drop_zero _)
    (fun h => Bool.noConfusion h) (fun _ => Or.inl rfl) _ hmem
  obtain ⟨hslt, -, -, -⟩ := runs_numeric flags 0 false 0 (by simp) _ hmem
  refine ⟨s, by rw [← hlen]; exact hslt, ?_, hpre, ?_, by omega⟩
  · intro j hj1 hj2
    exact hrun j hj1 (by rw [hlen]; exact hj2)
  · rw [segment_lines_eq, List.getLast?_map, ← hflags, hs]
    simp only [Option.map_some']
    rw [show mkRegion page (grayOf convertL page).length (s, flags.length, true) =
        LineImage.mk (page.cropRows (s - 3) page.height)
          (0, s - 3, page.width, page.height) by
      simp [mkRegion, hgray, hlen]]

/-- C4: a page whose row ink-density projection is all zeros
(`max(density) = 0`) has threshold 0, an all-`false` flag sequence (strict
`>` comparison), and `segment_lines` returns the empty list. -/
theorem claim_C4_blank (convertL : Image → Grid) (threshold : Grid → Grid)
    (page : Image)
    (hmax : listMax (projectionOf convertL threshold page) = 0) :
    threshOf convertL threshold page = 0 ∧
    is_text_row convertL threshold page =
      List.replicate (projectionOf convertL threshold page).length false ∧
    segment_lines convertL threshold page = [] := by
  have hthresh : threshOf convertL threshold page = 0 := by
    rw [threshOf, hmax]
    norm_num
  have hflags : is_text_row convertL threshold page =
      List.replicate (projectionOf convertL threshold page).length false := by
    rw [List.eq_replicate_iff]
    refine ⟨by rw [is_text_row]; simp, ?_⟩
    intro b hb
    rw [is_text_row, List.mem_map] at hb
    obtain ⟨d, hd, hdb⟩ := hb
    have hd0 : d = 0 := by
      have := le_listMax _ d hd
      omega
    subst hd0
    rw [← hdb, hthresh]
    apply decide_eq_false
    norm_num
  refine ⟨hthresh, hflags, ?_⟩
  rw [segment_lines_eq, hflags, runs_allFalse _ 0 0 (by simp), List.map_nil]

/-- C5 (amended): regions are returned in non-decreasing `y1` order (the
top clamp `y1 = max(0, s - 3)` can make consecutive `y1` equal), and the
underlying unpadded runs are strictly ordered: each run starts strictly
after the previous run's unpadded end row. -/
theorem claim_C5_order (convertL : Image → Grid) (threshold : Grid → Grid)
    (page : Image) :
    List.Chain' (fun a b : LineImage => a.bbox.2.1 ≤ b.bbox.2.1)
      (segment_lines convertL threshold page) ∧
    List.Chain' (fun p q : Nat × Nat × Bool => p.1 < q.1 ∧ p.2.1 < q.1)
      (runs 0 (is_text_row convertL threshold page) false 0) := by
  have hchain := runs_chain (is_text_row convertL threshold page) 0 false 0 (by simp)
  refine ⟨?_, hchain⟩
  rw [segment_lines_eq, List.chain'_map]
  refine hchain.imp ?_
  intro p q hpq
  rw [mkRegion_bbox, mkRegion_bbox]
  show p.1 - 3 ≤ q.1 - 3
  omega

/-- C5 counterexample: on the ink/blank/ink page the two returned regions
both have `y1 = 0`, so the region list is not in strictly increasing `y1`
order. -/
theorem claim_C5_cex :
    ¬ List.Chain' (fun a b : LineImage => a.bbox.2.1 < b.bbox.2.1)
      (segment_lines wConvertL wThreshold wPageTies) := by
  rw [wSegTies]
  intro h
  exact absurd (List.chain'_cons.mp h).1 (by decide)

/-- C7: a page whose row ink-density projection has a strictly positive
maximum produces at least one `true` flag (the maximal row strictly
exceeds the 10% threshold), and `segment_lines` returns at least one
region. -/
theorem claim_C7_nonempty (convertL : Image → Grid) (threshold : Grid → Grid)
    (page : Image)
    (hpos : 0 < listMax (projectionOf convertL threshold page)) :
    true ∈ is_text_row convertL threshold page ∧
    segment_lines convertL threshold page ≠ [] := by
  set m := listMax (projectionOf convertL threshold page) with hm
  have hflag : decide ((m : ℚ) > threshOf convertL threshold page) = true := by
    apply decide_eq_true
    rw [threshOf, ← hm]
    exact (rat_flag_iff m m).mpr (by omega)
  have htrue : true ∈ is_text_row convertL threshold page := by
    rw [is_text_row]
    rw [← hflag]
    exact List.mem_map_of_mem _ (listMax_mem _ hpos)
  refine ⟨htrue, ?_⟩
  rw [segment_lines_eq]
  intro h
  rw [List.map_eq_nil_iff] at h
  exact runs_neNil_of_mem_true _ 0 0 htrue h

/-- C8: two pages with the same binary ink mask after thresholding (and the
same width and grayscale height) produce the same number of Line Regions
with identical bounding boxes. -/
theorem claim_C8_mask (cL1 cL2 : Image → Grid) (t1 t2 : Grid → Grid)
    (p q : Image)
    (hmask : bwOf cL1 t1 p = bwOf cL2 t2 q)
    (hglen : (grayOf cL1 p).length = (grayOf cL2 q).length)
    (hw : p.width = q.width) :
    (segment_lines cL1 t1 p).length = (segment_lines cL2 t2 q).length ∧
    (segment_lines cL1 t1 p).map LineImage.bbox =
      (segment_lines cL2 t2 q).map LineImage.bbox := by
  have hflags : is_text_row cL1 t1 p = is_text_row cL2 t2 q := by
    rw [is_text_row, is_text_row, threshOf, threshOf, projectionOf, projectionOf, hmask]
  constructor
  · rw [segment_lines_eq, segment_lines_eq, List.length_map, List.length_map, hflags]
  · rw [segment_lines_eq, segment_lines_eq, List.map_map, List.map_map, hflags]
    apply List.map_congr_left
    intro r _
    show (mkRegion p (grayOf cL1 p).length r).bbox =
      (mkRegion q (grayOf cL2 q).length r).bbox
    rw [mkRegion_bbox, mkRegion_bbox, hw, hglen]

/-- C9: `segment_lines` is deterministic (any two outputs related to the
same input coincide) and side-effect free (the input page is unchanged
after two invocations, and both invocations return the same list). -/
theorem claim_C9_deterministic (convertL : Image → Grid) (threshold : Grid → Grid)
    (page : Image) (out1 out2 : List LineImage)
    (h1 : SegmentsTo convertL threshold page out1)
    (h2 : SegmentsTo convertL threshold page out2) :
    out1 = out2 ∧
    (runTwice convertL threshold page).1.1 = (runTwice convertL threshold page).1.2 ∧
    (runTwice convertL threshold page).2 = page := by
  rw [SegmentsTo] at h1 h2
  exact ⟨h1 ▸ h2 ▸ rfl, rfl, rfl⟩

/-- C6 (amended): every line record emitted by `ocr_pages` carries, for
some segmented line of its page, that line's bounding box unchanged
alongside that line's recognized text (lines whose recognized text strips
to empty are omitted, see C10), and every crop handed to the recognizer is
first converted to 3-channel RGB. -/
theorem claim_C6_bbox_rgb (convertL : Image → Grid) (threshold : Grid → Grid)
    (convertRGB : Image → Image) (generate : Image → String)
    (pages : List Image)
    (hconv : ∀ img, (convertRGB img).mode = "RGB") :
    (∀ (k : Nat) (page : Image) (r : PageResult), pages[k]? = some page →
      (ocr_pages convertL threshold convertRGB generate pages)[k]? = some r →
      ∀ lr ∈ r.lines, ∃ li ∈ segment_lines convertL threshold page,
        lr.bbox = li.bbox ∧
        lr.text = recognize_line convertRGB generate li.image) ∧
    (∀ img, (recognizeInput convertRGB img).mode = "RGB") := by
  constructor
  · intro k page r hk hr lr hlr
    rw [ocr_pages, ocr_pages_from_get, hk] at hr
    simp only [Option.map_some'] at hr
    have hr' : r = ⟨1 + k,
        ocr_page_lines convertRGB generate (segment_lines convertL threshold page)⟩ :=
      (Option.some.inj hr).symm
    subst hr'
    obtain ⟨-, li, hli, hb, ht⟩ :=
      ocr_page_lines_mem convertRGB generate (segment_lines convertL threshold page)
        lr hlr
    exact ⟨li, hli, hb, ht⟩
  · intro img
    unfold recognizeInput
    split
    · exact hconv img
    · next h => exact not_not.mp h

/-- C6 counterexample to the claim as stated: with a recognizer that reads
empty text on every crop, the segmenter produces a region on `wPageTies`
whose bounding box appears in no output line record, so not every
segmenter bounding box is propagated to the output. -/
theorem claim_C6_cex :
    ∃ li ∈ segment_lines wConvertL wThreshold wPageTies,
      ∀ r ∈ ocr_pages wConvertL wThreshold wConvertRGB wGenNone [wPageTies],
        ∀ lr ∈ r.lines, lr.bbox ≠ li.bbox := by
  have hempty : ocr_page_lines wConvertRGB wGenNone
      (segment_lines wConvertL wThreshold wPageTies) = [] :=
    ocr_page_lines_all_empty wConvertRGB wGenNone _ (fun li _ => rfl)
  refine ⟨wRegionTies, ?_, ?_⟩
  · rw [wSegTies]
    exact List.mem_cons_self _ _
  · intro r hr lr hlr
    rw [ocr_pages] at hr
    simp only [ocr_pages_from, hempty, List.mem_singleton] at hr
    subst hr
    simp at hlr

/-- C10: `ocr_pages` emits one page dict per input page in order with
page numbering starting at 1; each page's `"lines"` list keeps exactly the
segmented lines whose recognized text is nonempty after stripping (so it
may be shorter than the segmenter's list), and a page where every line
recognizes to empty text still appears, with an empty `"lines"` list. -/
theorem claim_C10_pages (convertL : Image → Grid) (threshold : Grid → Grid)
    (convertRGB : Image → Image) (generate : Image → String)
    (pages : List Image) :
    (ocr_pages convertL threshold convertRGB generate pages).length = pages.length ∧
    ∀ k page, pages[k]? = some page →
      ∃ r, (ocr_pages convertL threshold convertRGB generate pages)[k]? = some r ∧
        r.page = k + 1 ∧
        r.lines = ocr_page_lines convertRGB generate
          (segment_lines convertL threshold page) ∧
        r.lines.length ≤ (segment_lines convertL threshold page).length ∧
        (∀ lr ∈ r.lines, lr.text ≠ "") ∧
        ((∀ li ∈ segment_lines convertL threshold page,
            recognize_line convertRGB generate li.image = "") → r.lines = []) := by
  refine ⟨ocr_pages_from_length convertL threshold convertRGB generate pages 1, ?_⟩
  intro k page hk
  refine ⟨⟨1 + k,
    ocr_page_lines convertRGB generate (segment_lines convertL threshold page)⟩,
    ?_, by show 1 + k = k + 1; omega, rfl, ?_, ?_, ?_⟩
  · rw [ocr_pages, ocr_pages_from_get, hk]
    rfl
  · exact List.length_filterMap_le _ _
  · intro lr hlr
    exact (ocr_page_lines_mem convertRGB generate _ lr hlr).1
  · intro hall
    exact ocr_page_lines_all_empty convertRGB generate _ hall

/-! ## Witnesses: the claim theorems applied at explicit inputs -/

/-- C1 witness: on `wPageBand`, the single-row run `[1, 2)` (closed at the
interior blank row 2) yields the region with `y1 = 0`, `y2 = 5`. -/
theorem claim_C1_wit :
    LineImage.mk (wPageBand.cropRows (1 - 3) (min wPageBand.height (2 + 3)))
        (0, 1 - 3, wPageBand.width, min wPageBand.height (2 + 3))
      ∈ segment_lines wConvertL wThreshold wPageBand ∧
    ((1 - 3 : Nat) : ℤ) = max 0 ((1 : ℤ) - 3) ∧
    ((min wPageBand.height (2 + 3) : Nat) : ℤ) =
      min (wPageBand.height : ℤ) ((2 : ℤ) + 3) ∧
    (wPageBand.cropRows (1 - 3) (min wPageBand.height (2 + 3))).rows =
      (wPageBand.rows.drop (1 - 3)).take (min wPageBand.height (2 + 3) - (1 - 3)) ∧
    (wPageBand.cropRows (1 - 3) (min wPageBand.height (2 + 3))).width =
      wPageBand.width :=
  claim_C1_interior_close wConvertL wThreshold wPageBand 1 2
    (by decide) (by decide) rfl (by decide) (by rw [wFlagsBand]; decide)
    (by
      intro j hj1 hj2
      have hj : j = 1 := by omega
      subst hj
      rw [wFlagsBand]
      decide)
    (by rw [wFlagsBand]; decide) (by rw [wFlagsBand]; decide)

/-- C2 witness: bounds of the first region detected on `wPageTies`. -/
theorem claim_C2_wit :
    ∃ y1 y2, wRegionTies.bbox = (0, y1, wPageTies.width, y2) ∧ 0 ≤ y1 ∧ y1 < y2 ∧
      y2 ≤ wPageTies.height :=
  claim_C2_bounds wConvertL wThreshold wPageTies (by decide) (by decide) rfl rfl
    wRegionTies (by rw [wSegTies]; exact List.mem_cons_self _ _)

/-- C3 witness: the bottom-touching band of `wPageTail` yields a final
region with `y2 = H` exactly. -/
theorem claim_C3_wit :
    ∃ s, s < wPageTail.height ∧
      (∀ j, s ≤ j → j < wPageTail.height →
        (is_text_row wConvertL wThreshold wPageTail).getD j false = true) ∧
      (s = 0 ∨ (is_text_row wConvertL wThreshold wPageTail).getD (s - 1) false = false) ∧
      (segment_lines wConvertL wThreshold wPageTail).getLast? =
        some (LineImage.mk (wPageTail.cropRows (s - 3) wPageTail.height)
          (0, s - 3, wPageTail.width, wPageTail.height)) ∧
      ((s - 3 : Nat) : ℤ) = max 0 ((s : ℤ) - 3) :=
  claim_C3_tail wConvertL wThreshold wPageTail rfl rfl (by rw [wFlagsTail]; decide)

/-- C4 witness: the all-white page has threshold 0, all-false flags, and no
regions. -/
theorem claim_C4_wit :
    threshOf wConvertL wThreshold wPageBlank = 0 ∧
    is_text_row wConvertL wThreshold wPageBlank =
      List.replicate (projectionOf wConvertL wThreshold wPageBlank).length false ∧
    segment_lines wConvertL wThreshold wPageBlank = [] :=
  claim_C4_blank wConvertL wThreshold wPageBlank (by decide)

/-- C6 witness: with a recognizer reading "hello" on every crop, both line
records of page 1 carry a segmenter bbox unchanged, and every recognizer
input is RGB. -/
theorem claim_C6_wit :
    (∀ lr ∈ (⟨1, [⟨(0, 0, 2, 3), "hello"⟩, ⟨(0, 0, 2, 3), "hello"⟩]⟩ : PageResult).lines,
      ∃ li ∈ segment_lines wConvertL wThreshold wPageTies,
        lr.bbox = li.bbox ∧
        lr.text = recognize_line wConvertRGB wGenHello li.image) ∧
    (∀ img, (recognizeInput wConvertRGB img).mode = "RGB") := by
  have h := claim_C6_bbox_rgb wConvertL wThreshold wConvertRGB wGenHello [wPageTies]
    (fun _ => rfl)
  refine ⟨h.1 0 wPageTies _ rfl ?_, h.2⟩
  rw [ocr_pages]
  simp only [ocr_pages_from]
  rw [wSegTies]
  decide

/-- C7 witness: the inked page `wPageTies` has a `true` flag and a
nonempty region list. -/
theorem claim_C7_wit :
    true ∈ is_text_row wConvertL wThreshold wPageTies ∧
    segment_lines wConvertL wThreshold wPageTies ≠ [] :=
  claim_C7_nonempty wConvertL wThreshold wPageTies (by decide)

/-- C8 witness: `wPageBand` and its intensity-shifted copy have the same
ink mask and get identical region counts and boxes. -/
theorem claim_C8_wit :
    (segment_lines wConvertL wThreshold wPageBand).length =
      (segment_lines wConvertL wThreshold wPageBandScaled).length ∧
    (segment_lines wConvertL wThreshold wPageBand).map LineImage.bbox =
      (segment_lines wConvertL wThreshold wPageBandScaled).map LineImage.bbox :=
  claim_C8_mask wConvertL wConvertL wThreshold wThreshold wPageBand wPageBandScaled
    (by decide) (by decide) rfl

/-- C9 witness: two invocations on `wPageTies` both produce the same
two-region list and leave the page unchanged. -/
theorem claim_C9_wit :
    ([wRegionTies, wRegionTies] : List LineImage) = [wRegionTies, wRegionTies] ∧
    (runTwice wConvertL wThreshold wPageTies).1.1 =
      (runTwice wConvertL wThreshold wPageTies).1.2 ∧
    (runTwice wConvertL wThreshold wPageTies).2 = wPageTies :=
  claim_C9_deterministic wConvertL wThreshold wPageTies
    [wRegionTies, wRegionTies] [wRegionTies, wRegionTies] wSegTies wSegTies

/-- C10 witness: the single-page batch produces one page record, numbered
1, with only nonempty-text lines. -/
theorem claim_C10_wit :
    ∃ r, (ocr_pages wConvertL wThreshold wConvertRGB wGenHello [wPageTies])[0]? =
        some r ∧
      r.page = 0 + 1 ∧
      r.lines = ocr_page_lines wConvertRGB wGenHello
        (segment_lines wConvertL wThreshold wPageTies) ∧
      r.lines.length ≤ (segment_lines wConvertL wThreshold wPageTies).length ∧
      (∀ lr ∈ r.lines, lr.text ≠ "") ∧
      ((∀ li ∈ segment_lines wConvertL wThreshold wPageTies,
          recognize_line wConvertRGB wGenHello li.image = "") → r.lines = []) :=
  (claim_C10_pages wConvertL wThreshold wConvertRGB wGenHello [wPageTies]).2
    0 wPageTies rfl

end OCRDemo
